import Mathlib

/-!
Verification of a NAND-based digital-logic library: derived boolean gates,
half/full adders, a variable-width ripple-carry adder, an incrementer, and
a six-flag ALU with a fixed 16-bit wrapper.

Bit vectors are `List Bool`, least-significant bit first.  Imperative index
loops of the source become folds and maps over `List.range`; every guarded
index read of the source keeps its guard.  A second, `Option`-valued
("checked") embedding models each vector index access as fallible and is
proved to always succeed, capturing the absence of panics.
-/

namespace CompSysLab

/-- Two-input NAND gate, the universal primitive. -/
def nand (a b : Bool) : Bool := !(a && b)

/-- NOT A = NAND(A, A). -/
def not (a : Bool) : Bool := nand a a

/-- AND(A, B) = NOT(NAND(A, B)). -/
def and (a b : Bool) : Bool :=
  let n := nand a b
  nand n n

/-- OR(A, B) = NAND(NOT A, NOT B). -/
def or (a b : Bool) : Bool :=
  let na := nand a a
  let nb := nand b b
  nand na nb

/-- XOR(A, B) built from four NANDs. -/
def xor (a b : Bool) : Bool :=
  let t1 := nand a b
  let t2 := nand a t1
  let t3 := nand b t1
  nand t2 t3

@[simp] lemma not_eq (a : Bool) : not a = !a := by cases a <;> rfl

@[simp] lemma and_eq (a b : Bool) : and a b = (a && b) := by
  cases a <;> cases b <;> rfl

@[simp] lemma or_eq (a b : Bool) : or a b = (a || b) := by
  cases a <;> cases b <;> rfl

@[simp] lemma xor_eq (a b : Bool) : xor a b = (a ^^ b) := by
  cases a <;> cases b <;> rfl

/-- Half adder: sum is XOR, carry is AND. -/
def half_adder (a b : Bool) : Bool × Bool :=
  let sum := xor a b
  let carry := and a b
  (sum, carry)

/-- Full adder: two chained half adders, carries folded by OR. -/
def full_adder (a b carry_in : Bool) : Bool × Bool :=
  let p1 := half_adder a b
  let p2 := half_adder p1.1 carry_in
  let carry_out := or p1.2 p2.2
  (p2.1, carry_out)

/-- One iteration of the ripple-carry loop: read bit `i` of each operand
(zero when out of range, matching the source's guards), feed the full adder
with the running carry, append the sum bit and update the carry. -/
def adderStep (a b : List Bool) (acc : List Bool × Bool) (i : Nat) :
    List Bool × Bool :=
  let bit_a := if i < a.length then a.getD i false else false
  let bit_b := if i < b.length then b.getD i false else false
  let p := full_adder bit_a bit_b acc.2
  (acc.1 ++ [p.1], p.2)

/-- Variable-width ripple-carry adder: iterate `adderStep` over
`0 .. max (len a) (len b)`, starting from the empty sum and carry 0. -/
def n_bit_adder (a b : List Bool) : List Bool × Bool :=
  (List.range (Nat.max a.length b.length)).foldl (adderStep a b) ([], false)

/-- Incrementer: add the single-bit constant one via the n-bit adder. -/
def incrementer (a : List Bool) : List Bool × Bool :=
  let increment := [true]
  n_bit_adder a increment

/-- Unsigned value of an LSB-first bit vector. -/
def bitsToNat : List Bool → Nat
  | [] => 0
  | b :: rest => b.toNat + 2 * bitsToNat rest

lemma full_adder_toNat (a b c : Bool) :
    (full_adder a b c).1.toNat + 2 * (full_adder a b c).2.toNat
      = a.toNat + b.toNat + c.toNat := by
  cases a <;> cases b <;> cases c <;> rfl

lemma bitsToNat_append_singleton (l : List Bool) (x : Bool) :
    bitsToNat (l ++ [x]) = bitsToNat l + 2 ^ l.length * x.toNat := by
  induction l with
  | nil => simp [bitsToNat]
  | cons b rest ih =>
      have h : bitsToNat ((b :: rest) ++ [x])
          = b.toNat + 2 * bitsToNat (rest ++ [x]) := rfl
      have h2 : bitsToNat (b :: rest) = b.toNat + 2 * bitsToNat rest := rfl
      rw [h, ih, h2, List.length_cons, pow_succ]
      ring

lemma bitsToNat_take_succ (k : Nat) (a : List Bool) :
    bitsToNat (a.take (k + 1))
      = bitsToNat (a.take k) + 2 ^ k * (a.getD k false).toNat := by
  induction k generalizing a with
  | zero =>
      cases a with
      | nil => simp [bitsToNat, List.getD]
      | cons b rest => simp [bitsToNat, List.getD]
  | succ k ih =>
      cases a with
      | nil => simp [bitsToNat, List.getD]
      | cons b rest =>
          simp only [List.take_succ_cons, bitsToNat, ih rest, List.getD_cons_succ,
            pow_succ]
          ring

/-- Invariant of the ripple-carry loop after `k` iterations: the partial sum
has length `k` and, together with the running carry weighted by `2 ^ k`,
equals the value of the low `k` bits of each operand. -/
lemma adder_loop_invariant (a b : List Bool) (k : Nat) :
    ((List.range k).foldl (adderStep a b) ([], false)).1.length = k ∧
    bitsToNat ((List.range k).foldl (adderStep a b) ([], false)).1
        + 2 ^ k * ((List.range k).foldl (adderStep a b) ([], false)).2.toNat
      = bitsToNat (a.take k) + bitsToNat (b.take k) := by
  induction k with
  | zero => simp [bitsToNat]
  | succ k ih =>
      obtain ⟨hlen, hval⟩ := ih
      rw [List.range_succ, List.foldl_append, List.foldl_cons, List.foldl_nil]
      set acc := (List.range k).foldl (adderStep a b) ([], false) with hacc
      constructor
      · simp [adderStep, hlen]
      · have hguard_a : (if k < a.length then a.getD k false else false)
            = a.getD k false := by
          split
          · rfl
          · rw [List.getD_eq_default]
            omega
        have hguard_b : (if k < b.length then b.getD k false else false)
            = b.getD k false := by
          split
          · rfl
          · rw [List.getD_eq_default]
            omega
        have hfa := full_adder_toNat (a.getD k false) (b.getD k false) acc.2
        simp only [adderStep, hguard_a, hguard_b]
        rw [bitsToNat_append_singleton, hlen, bitsToNat_take_succ k a,
          bitsToNat_take_succ k b]
        have key : bitsToNat acc.1
              + 2 ^ k * (full_adder (a.getD k false) (b.getD k false) acc.2).1.toNat
              + 2 ^ (k + 1)
                * (full_adder (a.getD k false) (b.getD k false) acc.2).2.toNat
            = bitsToNat (a.take k) + 2 ^ k * (a.getD k false).toNat
              + (bitsToNat (b.take k) + 2 ^ k * (b.getD k false).toNat) := by
          calc bitsToNat acc.1
              + 2 ^ k * (full_adder (a.getD k false) (b.getD k false) acc.2).1.toNat
              + 2 ^ (k + 1)
                * (full_adder (a.getD k false) (b.getD k false) acc.2).2.toNat
              = bitsToNat acc.1 + 2 ^ k
                * ((full_adder (a.getD k false) (b.getD k false) acc.2).1.toNat
                   + 2 * (full_adder (a.getD k false) (b.getD k false) acc.2).2.toNat) := by
                rw [pow_succ]
                ring
            _ = bitsToNat acc.1 + 2 ^ k
                * ((a.getD k false).toNat + (b.getD k false).toNat + acc.2.toNat) := by
                rw [hfa]
            _ = bitsToNat acc.1 + 2 ^ k * acc.2.toNat
                + 2 ^ k * (a.getD k false).toNat + 2 ^ k * (b.getD k false).toNat := by
                ring
            _ = bitsToNat (a.take k) + bitsToNat (b.take k)
                + 2 ^ k * (a.getD k false).toNat + 2 ^ k * (b.getD k false).toNat := by
                rw [hval]
            _ = bitsToNat (a.take k) + 2 ^ k * (a.getD k false).toNat
                + (bitsToNat (b.take k) + 2 ^ k * (b.getD k false).toNat) := by
                ring
        omega

lemma n_bit_adder_length (a b : List Bool) :
    (n_bit_adder a b).1.length = Nat.max a.length b.length :=
  (adder_loop_invariant a b (Nat.max a.length b.length)).1

lemma n_bit_adder_value (a b : List Bool) :
    bitsToNat (n_bit_adder a b).1
        + 2 ^ (Nat.max a.length b.length) * (n_bit_adder a b).2.toNat
      = bitsToNat a + bitsToNat b := by
  have h := (adder_loop_invariant a b (Nat.max a.length b.length)).2
  rwa [List.take_of_length_le (Nat.le_max_left _ _),
    List.take_of_length_le (Nat.le_max_right _ _)] at h

/-- C1: the ripple-carry adder returns a sum of width `max (len a) (len b)`
whose value plus the weighted final carry equals `value a + value b`
(the shorter operand reading as zero past its end), with the two
documented examples `[1,0,1] + [1,1] = ([0,0,0], carry)` and
`[] + [] = ([], no carry)`. -/
theorem n_bit_adder_spec (a b : List Bool) :
    (n_bit_adder a b).1.length = Nat.max a.length b.length ∧
    bitsToNat (n_bit_adder a b).1
        + 2 ^ (Nat.max a.length b.length) * (n_bit_adder a b).2.toNat
      = bitsToNat a + bitsToNat b ∧
    n_bit_adder [true, false, true] [true, true]
      = ([false, false, false], true) ∧
    n_bit_adder [] [] = ([], false) :=
  ⟨n_bit_adder_length a b, n_bit_adder_value a b, by decide, by decide⟩

/-- Input-conditioning stage of the ALU: bit `i` of the operand is read as 0
past the operand's end or when the zero flag `z` is set, then inverted when
the negate flag `neg` is set.  Produces a vector of width `n`. -/
def conditioned (v : List Bool) (z neg : Bool) (n : Nat) : List Bool :=
  (List.range n).map (fun i =>
    let bit := if i ≥ v.length ∨ z then false else v.getD i false
    if neg then not bit else bit)

/-- Six-flag ALU over bit vectors of possibly different lengths: condition
both operands to width `n = max (len x) (len y)`, select addition or bitwise
AND by `f` (the adder's final carry is dropped and its sum is copied into a
width-`n` vector, positions past the sum reading 0), negate the output when
`no` is set, then derive the zero and negative flags from the output. -/
def alu (x y : List Bool) (zx nx zy ny f no : Bool) :
    List Bool × Bool × Bool :=
  let n := Nat.max x.length y.length
  let x_processed := conditioned x zx nx n
  let y_processed := conditioned y zy ny n
  let out0 :=
    if f then
      let sum := (n_bit_adder x_processed y_processed).1
      (List.range n).map (fun i => if i < sum.length then sum.getD i false else false)
    else
      (List.range n).map
        (fun i => and (x_processed.getD i false) (y_processed.getD i false))
  let out := if no then (List.range n).map (fun i => not (out0.getD i false)) else out0
  let is_zero := (List.range n).foldl (fun z i => z && !(out.getD i false)) true
  let is_negative := if n > 0 then out.getD (n - 1) false else false
  (out, is_zero, is_negative)

/-- Fixed 16-bit ALU wrapper: run the general ALU and copy its output into a
16-slot vector (positions past the output's length stay 0). -/
def alu16 (x y : List Bool) (zx nx zy ny f no : Bool) :
    List Bool × Bool × Bool :=
  let r := alu x y zx nx zy ny f no
  let out := (List.range 16).map
    (fun i => if i < r.1.length then r.1.getD i false else false)
  (out, r.2.1, r.2.2)

lemma getD_range_map (g : Nat → Bool) (n i : Nat) (h : i < n) :
    ((List.range n).map g).getD i false = g i := by
  rw [List.getD_eq_getElem?_getD, List.getElem?_map, List.getElem?_range h]
  rfl

@[simp] lemma conditioned_length (v : List Bool) (z neg : Bool) (n : Nat) :
    (conditioned v z neg n).length = n := by
  simp [conditioned]

lemma conditioned_getD (v : List Bool) (z neg : Bool) (n i : Nat) (h : i < n) :
    (conditioned v z neg n).getD i false
      = (neg ^^ (if z then false else v.getD i false)) := by
  unfold conditioned
  rw [getD_range_map _ _ _ h]
  dsimp only
  by_cases hv : v.length ≤ i
  · rw [List.getD_eq_default _ _ hv, if_pos (Or.inl hv)]
    cases z <;> cases neg <;> simp
  · have hlt : i < v.length := Nat.lt_of_not_le hv
    cases z with
    | true =>
        rw [if_pos (Or.inr rfl)]
        cases neg <;> simp
    | false =>
        rw [if_neg (show ¬(i ≥ v.length ∨ false = true) from by
          rintro (h1 | h2)
          · omega
          · exact Bool.false_ne_true h2)]
        generalize v.getD i false = b
        cases neg <;> cases b <;> simp

/-- C2: the ALU's conditioned inputs have width `max (len x) (len y)` and
each bit equals the negate flag XOR the zeroed (zero-extended) operand bit:
zeroing applies before negation, so with both flags set the result is
all-ones regardless of the operand; symmetrically for `y`. -/
theorem alu_input_conditioning (x y : List Bool) (zx nx zy ny : Bool) :
    (conditioned x zx nx (Nat.max x.length y.length)).length
        = Nat.max x.length y.length ∧
    (∀ i, i < Nat.max x.length y.length →
      (conditioned x zx nx (Nat.max x.length y.length)).getD i false
        = (nx ^^ (if zx then false else x.getD i false))) ∧
    (∀ i, i < Nat.max x.length y.length →
      (conditioned y zy ny (Nat.max x.length y.length)).getD i false
        = (ny ^^ (if zy then false else y.getD i false))) ∧
    (zx = true → nx = true → ∀ i, i < Nat.max x.length y.length →
      (conditioned x zx nx (Nat.max x.length y.length)).getD i false = true) := by
  refine ⟨conditioned_length _ _ _ _,
    fun i hi => conditioned_getD _ _ _ _ _ hi,
    fun i hi => conditioned_getD _ _ _ _ _ hi, ?_⟩
  intro hzx hnx i hi
  rw [conditioned_getD x zx nx _ i hi, hzx, hnx]
  simp

/-- Closed instance of the conditioning theorem at a concrete input. -/
theorem alu_input_conditioning_witness :
    (conditioned [true] true true
        (Nat.max ([true] : List Bool).length ([false, true] : List Bool).length)).getD 0 false
      = (true ^^ (if true then false else ([true] : List Bool).getD 0 false)) :=
  (alu_input_conditioning [true] [false, true] true true false false).2.1 0 (by decide)

lemma alu_out_length (x y : List Bool) (zx nx zy ny f no : Bool) :
    (alu x y zx nx zy ny f no).1.length = Nat.max x.length y.length := by
  cases f <;> cases no <;> simp [alu]

lemma alu_out_getD (x y : List Bool) (zx nx zy ny f no : Bool) (i : Nat)
    (h : i < Nat.max x.length y.length) :
    (alu x y zx nx zy ny f no).1.getD i false
      = (no ^^ (if f then
            (n_bit_adder (conditioned x zx nx (Nat.max x.length y.length))
              (conditioned y zy ny (Nat.max x.length y.length))).1.getD i false
          else
            ((conditioned x zx nx (Nat.max x.length y.length)).getD i false
              && (conditioned y zy ny (Nat.max x.length y.length)).getD i false))) := by
  have hsum : (n_bit_adder (conditioned x zx nx (Nat.max x.length y.length))
      (conditioned y zy ny (Nat.max x.length y.length))).1.length
      = Nat.max x.length y.length := by
    rw [n_bit_adder_length, conditioned_length, conditioned_length]
    exact Nat.max_self _
  cases f with
  | false =>
      cases no <;> simp [alu, List.getElem?_range h, getD_range_map _ _ _ h]
  | true =>
      have hi' : i < (n_bit_adder (conditioned x zx nx (Nat.max x.length y.length))
          (conditioned y zy ny (Nat.max x.length y.length))).1.length := by
        rw [hsum]
        exact h
      cases no <;>
        simp [alu, List.getElem?_range h, List.getElem?_eq_getElem hi', hi',
          getD_range_map _ _ _ h]

/-- C3: the ALU output has width `n = max (len x) (len y)` and each bit is
the `no` flag XOR either the adder's sum bit on the conditioned operands
(when `f` is set; final carry discarded, width forced to `n`) or the AND of
the conditioned bits (when `f` is clear); the documented AND example holds. -/
theorem alu_function_selection (x y : List Bool) (zx nx zy ny f no : Bool) :
    (alu x y zx nx zy ny f no).1.length = Nat.max x.length y.length ∧
    (∀ i, i < Nat.max x.length y.length →
      (alu x y zx nx zy ny f no).1.getD i false
        = (no ^^ (if f then
              (n_bit_adder (conditioned x zx nx (Nat.max x.length y.length))
                (conditioned y zy ny (Nat.max x.length y.length))).1.getD i false
            else
              ((conditioned x zx nx (Nat.max x.length y.length)).getD i false
                && (conditioned y zy ny (Nat.max x.length y.length)).getD i false)))) ∧
    (alu [true, true, false, false] [true, false, true, false]
        false false false false false false).1 = [true, false, false, false] :=
  ⟨alu_out_length x y zx nx zy ny f no,
   fun i hi => alu_out_getD x y zx nx zy ny f no i hi,
   by decide⟩

/-- Closed instance of the function-selection theorem at a concrete input. -/
theorem alu_function_selection_witness :
    (alu [true, true] [true, false] false false false false false false).1.getD 0 false
      = ((false : Bool) ^^ (if (false : Bool) then
            (n_bit_adder
              (conditioned [true, true] false false
                (Nat.max ([true, true] : List Bool).length ([true, false] : List Bool).length))
              (conditioned [true, false] false false
                (Nat.max ([true, true] : List Bool).length ([true, false] : List Bool).length))).1.getD 0 false
          else
            ((conditioned [true, true] false false
                (Nat.max ([true, true] : List Bool).length ([true, false] : List Bool).length)).getD 0 false
              && (conditioned [true, false] false false
                (Nat.max ([true, true] : List Bool).length ([true, false] : List Bool).length)).getD 0 false))) :=
  (alu_function_selection [true, true] [true, false]
    false false false false false false).2.1 0 (by decide)

lemma foldl_and_eq_all (g : Nat → Bool) (l : List Nat) (z : Bool) :
    l.foldl (fun acc i => acc && g i) z = (z && l.all g) := by
  induction l generalizing z with
  | nil => simp
  | cons a l ih => simp [List.foldl_cons, ih, Bool.and_assoc]

lemma zr_loop_iff (out : List Bool) (n : Nat) (hlen : out.length = n) :
    ((List.range n).foldl (fun z i => z && !(out.getD i false)) true) = true
      ↔ ∀ b ∈ out, b = false := by
  rw [foldl_and_eq_all (fun i => !(out.getD i false)) (List.range n) true]
  simp only [Bool.true_and, List.all_eq_true, List.mem_range]
  constructor
  · intro hall b hb
    obtain ⟨j, hj, rfl⟩ := List.getElem_of_mem hb
    have hj' : j < n := by omega
    have := hall j hj'
    rw [List.getD_eq_getElem?_getD, List.getElem?_eq_getElem hj] at this
    simpa using this
  · intro hall i _
    by_cases hi' : i < out.length
    · rw [List.getD_eq_getElem?_getD, List.getElem?_eq_getElem hi']
      have := hall _ (List.getElem_mem hi')
      simp [this]
    · rw [List.getD_eq_default _ _ (Nat.le_of_not_lt hi')]
      rfl

lemma alu_zr_component (x y : List Bool) (zx nx zy ny f no : Bool) :
    (alu x y zx nx zy ny f no).2.1
      = ((List.range (Nat.max x.length y.length)).foldl
          (fun z i => z && !((alu x y zx nx zy ny f no).1.getD i false)) true) := rfl

lemma alu_ng_component (x y : List Bool) (zx nx zy ny f no : Bool) :
    (alu x y zx nx zy ny f no).2.2
      = (if Nat.max x.length y.length > 0 then
          (alu x y zx nx zy ny f no).1.getD (Nat.max x.length y.length - 1) false
        else false) := rfl

/-- C4: the returned flags are pure functions of the returned output: `zr`
holds exactly when every output bit is 0 (vacuously for an empty output),
and `ng` is the most significant output bit (false for an empty output). -/
theorem alu_flags_derived (x y : List Bool) (zx nx zy ny f no : Bool) :
    ((alu x y zx nx zy ny f no).2.1 = true
      ↔ ∀ b ∈ (alu x y zx nx zy ny f no).1, b = false) ∧
    (alu x y zx nx zy ny f no).2.2
      = (alu x y zx nx zy ny f no).1.getD
          ((alu x y zx nx zy ny f no).1.length - 1) false := by
  have hlen := alu_out_length x y zx nx zy ny f no
  constructor
  · rw [alu_zr_component]
    exact zr_loop_iff _ _ hlen
  · rw [alu_ng_component, hlen]
    by_cases hn : 0 < Nat.max x.length y.length
    · rw [if_pos hn]
    · rw [if_neg hn]
      have hle : (alu x y zx nx zy ny f no).1.length
          ≤ Nat.max x.length y.length - 1 := by
        omega
      rw [List.getD_eq_default _ _ hle]

/-- Closed instance of the flag-derivation theorem at a concrete input. -/
theorem alu_flags_derived_witness :
    (alu [true] [] false false false false false false).2.1 = true
      ↔ ∀ b ∈ (alu [true] [] false false false false false false).1, b = false :=
  (alu_flags_derived [true] [] false false false false false false).1

/-- C5: the three canonical 16-bit presets on all-zero operands: constant 0
(with `zr` set), constant 1 (LSB only), and constant −1 (all ones, `ng`
set). -/
theorem alu16_presets :
    alu16 (List.replicate 16 false) (List.replicate 16 false)
        true false true false true false
      = (List.replicate 16 false, true, false) ∧
    alu16 (List.replicate 16 false) (List.replicate 16 false)
        true true true true true true
      = (true :: List.replicate 15 false, false, false) ∧
    alu16 (List.replicate 16 false) (List.replicate 16 false)
        true true true false true false
      = (List.replicate 16 true, false, true) := by
  decide

lemma bitsToNat_lt (l : List Bool) : bitsToNat l < 2 ^ l.length := by
  induction l with
  | nil => simp [bitsToNat]
  | cons b rest ih =>
      have hb : b.toNat ≤ 1 := Bool.toNat_le b
      simp only [bitsToNat, List.length_cons, pow_succ]
      omega

lemma bitsToNat_eq_pred_pow_iff (l : List Bool) :
    bitsToNat l = 2 ^ l.length - 1 ↔ ∀ b ∈ l, b = true := by
  induction l with
  | nil => simp [bitsToNat]
  | cons b rest ih =>
      have hlt := bitsToNat_lt rest
      have hpow : 1 ≤ 2 ^ rest.length := Nat.one_le_two_pow
      simp only [bitsToNat, List.length_cons, pow_succ]
      cases b with
      | false =>
          refine ⟨fun h => absurd h (by simp; omega), fun h => ?_⟩
          exact absurd (h false (by simp)) (by simp)
      | true =>
          constructor
          · intro h b' hb'
            rcases List.mem_cons.mp hb' with rfl | hm
            · rfl
            · exact (ih.mp (by simp at h; omega)) b' hm
          · intro h
            have := ih.mpr (fun b hb => h b (List.mem_cons_of_mem _ hb))
            simp
            omega

lemma bitsToNat_eq_zero_iff (l : List Bool) :
    bitsToNat l = 0 ↔ ∀ b ∈ l, b = false := by
  induction l with
  | nil => simp [bitsToNat]
  | cons b rest ih =>
      cases b with
      | true =>
          refine ⟨fun h => absurd h (by simp [bitsToNat]), fun h => ?_⟩
          exact absurd (h true (by simp)) (by simp)
      | false =>
          simp only [bitsToNat, Bool.toNat_false, Nat.zero_add]
          constructor
          · intro h b' hb'
            rcases List.mem_cons.mp hb' with rfl | hm
            · rfl
            · exact (ih.mp (by omega)) b' hm
          · intro h
            have := ih.mpr (fun b hb => h b (List.mem_cons_of_mem _ hb))
            omega

lemma incrementer_overflow (a : List Bool) (ha : a ≠ []) :
    ((incrementer a).2 = true ↔ ∀ b ∈ a, b = true) := by
  have hpos : 0 < a.length := List.length_pos.mpr ha
  have hn1 : Nat.max a.length ([true] : List Bool).length = a.length := by
    simp only [List.length_singleton]
    exact Nat.max_eq_left hpos
  have hval := n_bit_adder_value a [true]
  have hlen := n_bit_adder_length a [true]
  rw [hn1] at hval hlen
  have h1 : bitsToNat [true] = 1 := rfl
  rw [h1] at hval
  have hS := bitsToNat_lt (n_bit_adder a [true]).1
  rw [hlen] at hS
  have hV := bitsToNat_lt a
  have hpow : 1 ≤ 2 ^ a.length := Nat.one_le_two_pow
  have hiff : (n_bit_adder a [true]).2 = true
      ↔ bitsToNat a = 2 ^ a.length - 1 := by
    cases hc : (n_bit_adder a [true]).2 with
    | true =>
        rw [hc, Bool.toNat_true] at hval
        simp only [true_iff]
        omega
    | false =>
        rw [hc, Bool.toNat_false] at hval
        simp only [Bool.false_eq_true, false_iff]
        omega
  rw [show incrementer a = n_bit_adder a [true] from rfl, hiff,
    bitsToNat_eq_pred_pow_iff]

/-- C6 fails as stated at the empty vector: every bit of `[]` is vacuously
1, yet the incrementer reports overflow false (and a one-bit result). -/
theorem incrementer_empty_counterexample :
    (∀ b ∈ ([] : List Bool), b = true) ∧
    incrementer [] = ([true], false) ∧ (incrementer []).2 = false :=
  ⟨by simp, by decide, by decide⟩

/-- C6 (amended): the incrementer is the adder applied to `(a, [true])`;
for every nonempty input the overflow bit is set exactly when every input
bit was already 1, and every all-ones vector of positive length `n` maps to
the all-zeros vector of length `n` with overflow set. -/
theorem incrementer_spec (a : List Bool) :
    incrementer a = n_bit_adder a [true] ∧
    (a ≠ [] → ((incrementer a).2 = true ↔ ∀ b ∈ a, b = true)) ∧
    (∀ n : Nat, 1 ≤ n →
      incrementer (List.replicate n true) = (List.replicate n false, true)) := by
  refine ⟨rfl, fun ha => incrementer_overflow a ha, ?_⟩
  intro n hn
  have hrlen : (List.replicate n true).length = n := List.length_replicate n true
  have ha : (List.replicate n true) ≠ [] := by
    intro hnil
    have := congrArg List.length hnil
    rw [hrlen] at this
    simp at this
    omega
  have hovf : (incrementer (List.replicate n true)).2 = true :=
    (incrementer_overflow _ ha).mpr (fun b hb => List.eq_of_mem_replicate hb)
  have hn1 : Nat.max (List.replicate n true).length ([true] : List Bool).length
      = n := by
    rw [hrlen, List.length_singleton]
    exact Nat.max_eq_left hn
  have hval := n_bit_adder_value (List.replicate n true) [true]
  have hlen := n_bit_adder_length (List.replicate n true) [true]
  rw [hn1] at hval hlen
  have hV : bitsToNat (List.replicate n true) = 2 ^ n - 1 := by
    have := (bitsToNat_eq_pred_pow_iff (List.replicate n true)).mpr
      (fun b hb => List.eq_of_mem_replicate hb)
    rwa [hrlen] at this
  have hcarry : (n_bit_adder (List.replicate n true) [true]).2 = true := hovf
  rw [hcarry, Bool.toNat_true, hV, show bitsToNat [true] = 1 from rfl] at hval
  have hS : bitsToNat (n_bit_adder (List.replicate n true) [true]).1 = 0 := by
    have hpow : 1 ≤ 2 ^ n := Nat.one_le_two_pow
    omega
  have hzero := (bitsToNat_eq_zero_iff _).mp hS
  have hout : (n_bit_adder (List.replicate n true) [true]).1
      = List.replicate n false :=
    List.eq_replicate_iff.mpr ⟨hlen, hzero⟩
  exact Prod.ext_iff.mpr ⟨hout, hovf⟩

/-- Closed instance of the amended incrementer theorem at a concrete
input. -/
theorem incrementer_spec_witness :
    ((incrementer [true, true]).2 = true ↔ ∀ b ∈ [true, true], b = true) ∧
    incrementer (List.replicate 3 true) = (List.replicate 3 false, true) :=
  ⟨(incrementer_spec [true, true]).2.1 (by decide),
   (incrementer_spec []).2.2 3 (by decide)⟩

/-- C7: inside the full adder, the two half-adder carries are never both 1,
the final OR exactly adds the two carry bits, and the full adder encodes
`a + b + carry_in` as the two-bit value `(sum, carry_out)`. -/
theorem full_adder_carry_exclusive (a b c : Bool) :
    ((half_adder a b).2 && (half_adder (half_adder a b).1 c).2) = false ∧
    (full_adder a b c).2.toNat
      = (half_adder a b).2.toNat + (half_adder (half_adder a b).1 c).2.toNat ∧
    (full_adder a b c).1.toNat + 2 * (full_adder a b c).2.toNat
      = a.toNat + b.toNat + c.toNat := by
  revert a b c
  decide

/-- C9: the incrementer's output width is `max (len a) 1`, and on the empty
vector it returns the one-bit result `[true]` with overflow false. -/
theorem incrementer_width (a : List Bool) :
    (incrementer a).1.length = Nat.max a.length 1 ∧
    incrementer ([] : List Bool) = ([true], false) := by
  constructor
  · have h := n_bit_adder_length a [true]
    simpa using h
  · decide

lemma range_map_getD (l : List Bool) :
    (List.range l.length).map (fun i => l.getD i false) = l := by
  induction l with
  | nil => rfl
  | cons b rest ih =>
      rw [List.length_cons, List.range_succ_eq_map]
      simp only [List.map_cons, List.map_map]
      have hcomp : ((fun i => (b :: rest).getD i false) ∘ (fun i => i + 1))
          = fun i => rest.getD i false := by
        funext i
        rfl
      rw [hcomp, ih]
      rfl

/-- C10: with two 16-bit operands the general ALU's output already has
width 16, so the fixed-width wrapper's copy loop is the identity and
`alu16` coincides with `alu`. -/
theorem alu16_refines_alu (x y : List Bool) (zx nx zy ny f no : Bool)
    (hx : x.length = 16) (hy : y.length = 16) :
    alu16 x y zx nx zy ny f no = alu x y zx nx zy ny f no := by
  have hlen := alu_out_length x y zx nx zy ny f no
  rw [hx, hy] at hlen
  have hlen' : (alu x y zx nx zy ny f no).1.length = 16 := by
    rw [hlen]
    decide
  unfold alu16
  dsimp only
  have hcopy : (List.range 16).map
      (fun i => if i < (alu x y zx nx zy ny f no).1.length
        then (alu x y zx nx zy ny f no).1.getD i false else false)
      = (alu x y zx nx zy ny f no).1 := by
    rw [← hlen']
    have h1 : (List.range (alu x y zx nx zy ny f no).1.length).map
        (fun i => if i < (alu x y zx nx zy ny f no).1.length
          then (alu x y zx nx zy ny f no).1.getD i false else false)
        = (List.range (alu x y zx nx zy ny f no).1.length).map
            (fun i => (alu x y zx nx zy ny f no).1.getD i false) :=
      List.map_congr_left (fun i hi => if_pos (List.mem_range.mp hi))
    rw [h1, range_map_getD]
  rw [hcopy]

/-- Closed instance of the wrapper-refinement theorem at concrete 16-bit
inputs. -/
theorem alu16_refines_alu_witness :
    alu16 (List.replicate 16 false) (List.replicate 16 true)
        false true false true true false
      = alu (List.replicate 16 false) (List.replicate 16 true)
        false true false true true false :=
  alu16_refines_alu _ _ _ _ _ _ _ _ (by simp) (by simp)


/-! ### Checked embedding

Every vector index read of the source becomes a fallible `Option` read with
exactly the guards the source has; a `none` result would correspond to an
out-of-bounds panic.  Proving each checked function equal to `some` of its
total counterpart shows no index access can fail.  The half and full adders
perform no index access, so only the vector-level functions appear here. -/

/-- Fallible read of bit `i`, `none` when `i` is out of bounds. -/
def readBit (v : List Bool) (i : Nat) : Option Bool := v[i]?

/-- Checked ripple-carry loop body: the operand reads keep the source's
bounds guards. -/
def adderStepChecked (a b : List Bool) (acc : List Bool × Bool) (i : Nat) :
    Option (List Bool × Bool) := do
  let bit_a ← (if i < a.length then readBit a i else pure false)
  let bit_b ← (if i < b.length then readBit b i else pure false)
  let p := full_adder bit_a bit_b acc.2
  pure (acc.1 ++ [p.1], p.2)

/-- Checked variable-width adder. -/
def n_bit_adderChecked (a b : List Bool) : Option (List Bool × Bool) :=
  (List.range (Nat.max a.length b.length)).foldlM (adderStepChecked a b) ([], false)

/-- Checked incrementer. -/
def incrementerChecked (a : List Bool) : Option (List Bool × Bool) :=
  n_bit_adderChecked a [true]

/-- Checked input conditioning: the operand read is guarded exactly as in
the source. -/
def conditionedChecked (v : List Bool) (z neg : Bool) (n : Nat) :
    Option (List Bool) :=
  (List.range n).mapM (fun i => do
    let bit ← (if i ≥ v.length ∨ z then pure false else readBit v i)
    pure (if neg then not bit else bit))

/-- Checked ALU: conditioning, function selection (the sum copy keeps its
bounds guard; the AND path reads the conditioned vectors unguarded, as the
source does), output negation, and flag derivation all through fallible
reads. -/
def aluChecked (x y : List Bool) (zx nx zy ny f no : Bool) :
    Option (List Bool × Bool × Bool) := do
  let n := Nat.max x.length y.length
  let x_processed ← conditionedChecked x zx nx n
  let y_processed ← conditionedChecked y zy ny n
  let out0 ←
    (if f then do
      let sum ← n_bit_adderChecked x_processed y_processed
      (List.range n).mapM (fun i =>
        if i < sum.1.length then readBit sum.1 i else pure false)
    else
      (List.range n).mapM (fun i => do
        let xb ← readBit x_processed i
        let yb ← readBit y_processed i
        pure (and xb yb)))
  let out ← (if no then
      (List.range n).mapM (fun i => do
        let b ← readBit out0 i
        pure (not b))
    else pure out0)
  let is_zero ← (List.range n).foldlM (fun z i => do
      let b ← readBit out i
      pure (z && !b)) true
  let is_negative ← (if n > 0 then readBit out (n - 1) else pure false)
  pure (out, is_zero, is_negative)

/-- Checked 16-bit wrapper: the copy loop keeps its bounds guard. -/
def alu16Checked (x y : List Bool) (zx nx zy ny f no : Bool) :
    Option (List Bool × Bool × Bool) := do
  let r ← aluChecked x y zx nx zy ny f no
  let out ← (List.range 16).mapM (fun i =>
    if i < r.1.length then readBit r.1 i else pure false)
  pure (out, r.2.1, r.2.2)

lemma readBit_eq (v : List Bool) (i : Nat) (h : i < v.length) :
    readBit v i = some (v.getD i false) := by
  unfold readBit
  rw [List.getD_eq_getElem?_getD, List.getElem?_eq_getElem h]
  rfl

lemma some_bind_reduce {α β : Type} (a : α) (f : α → Option β) :
    (some a >>= f) = f a := rfl

lemma pure_bind_reduce {α β : Type} (a : α) (f : α → Option β) :
    ((pure a : Option α) >>= f) = f a := rfl

lemma foldlM_eq_foldl {α β : Type} (f' : β → α → Option β) (f : β → α → β)
    (l : List α) :
    (∀ acc x, x ∈ l → f' acc x = some (f acc x)) →
    ∀ init, l.foldlM f' init = some (l.foldl f init) := by
  induction l with
  | nil => intro _ init; rfl
  | cons a l ih =>
      intro h init
      rw [List.foldlM_cons, h init a (List.mem_cons_self a l)]
      rw [List.foldl_cons]
      exact ih (fun acc x hx => h acc x (List.mem_cons_of_mem _ hx)) (f init a)

lemma mapM_eq_map {α β : Type} (f' : α → Option β) (g : α → β) (l : List α) :
    (∀ x ∈ l, f' x = some (g x)) → l.mapM f' = some (l.map g) := by
  induction l with
  | nil => intro _; rfl
  | cons a l ih =>
      intro h
      rw [List.mapM_cons, h a (List.mem_cons_self a l),
        ih (fun x hx => h x (List.mem_cons_of_mem _ hx))]
      rfl

lemma adderStepChecked_eq (a b : List Bool) (acc : List Bool × Bool) (i : Nat) :
    adderStepChecked a b acc i = some (adderStep a b acc i) := by
  unfold adderStepChecked adderStep
  have ra : (if i < a.length then readBit a i else pure false)
      = some (if i < a.length then a.getD i false else false) := by
    by_cases ha : i < a.length
    · rw [if_pos ha, if_pos ha]
      exact readBit_eq a i ha
    · rw [if_neg ha, if_neg ha]
      rfl
  have rb : (if i < b.length then readBit b i else pure false)
      = some (if i < b.length then b.getD i false else false) := by
    by_cases hb : i < b.length
    · rw [if_pos hb, if_pos hb]
      exact readBit_eq b i hb
    · rw [if_neg hb, if_neg hb]
      rfl
  rw [ra, rb]
  rfl

lemma n_bit_adderChecked_eq (a b : List Bool) :
    n_bit_adderChecked a b = some (n_bit_adder a b) :=
  foldlM_eq_foldl _ _ _ (fun acc i _ => adderStepChecked_eq a b acc i) _

lemma incrementerChecked_eq (a : List Bool) :
    incrementerChecked a = some (incrementer a) :=
  n_bit_adderChecked_eq a [true]

lemma conditionedChecked_eq (v : List Bool) (z neg : Bool) (n : Nat) :
    conditionedChecked v z neg n = some (conditioned v z neg n) := by
  unfold conditionedChecked conditioned
  apply mapM_eq_map
  intro i _
  dsimp only
  by_cases hc : i ≥ v.length ∨ z = true
  · rw [if_pos hc, if_pos hc]
    rfl
  · have hlt : i < v.length := by
      rcases Nat.lt_or_ge i v.length with h | h
      · exact h
      · exact absurd (Or.inl h) hc
    rw [if_neg hc, if_neg hc, readBit_eq v i hlt]
    rfl

lemma copyChecked_eq (sum : List Bool) (n : Nat) :
    (List.range n).mapM
        (fun i => if i < sum.length then readBit sum i else pure false)
      = some ((List.range n).map
          (fun i => if i < sum.length then sum.getD i false else false)) := by
  apply mapM_eq_map
  intro i _
  by_cases hc : i < sum.length
  · rw [if_pos hc, if_pos hc]
    exact readBit_eq sum i hc
  · rw [if_neg hc, if_neg hc]
    rfl

lemma andChecked_eq (v w : List Bool) (zv nv zw nw : Bool) (n : Nat) :
    (List.range n).mapM (fun i => do
        let xb ← readBit (conditioned v zv nv n) i
        let yb ← readBit (conditioned w zw nw n) i
        pure (and xb yb))
      = some ((List.range n).map (fun i =>
          and ((conditioned v zv nv n).getD i false)
            ((conditioned w zw nw n).getD i false))) := by
  apply mapM_eq_map
  intro i hi
  have hi' := List.mem_range.mp hi
  rw [readBit_eq _ i (by rw [conditioned_length]; exact hi'),
    readBit_eq _ i (by rw [conditioned_length]; exact hi')]
  rfl

lemma negChecked_eq (g : Nat → Bool) (n : Nat) :
    (List.range n).mapM (fun i => do
        let b ← readBit ((List.range n).map g) i
        pure (not b))
      = some ((List.range n).map
          (fun i => not (((List.range n).map g).getD i false))) := by
  apply mapM_eq_map
  intro i hi
  have hi' := List.mem_range.mp hi
  rw [readBit_eq _ i (by simpa using hi')]
  rfl

lemma zeroChecked_eq (g : Nat → Bool) (n : Nat) :
    (List.range n).foldlM (fun z i => do
        let b ← readBit ((List.range n).map g) i
        pure (z && !b)) true
      = some ((List.range n).foldl
          (fun z i => z && !(((List.range n).map g).getD i false)) true) := by
  apply foldlM_eq_foldl
  intro acc i hi
  have hi' := List.mem_range.mp hi
  rw [readBit_eq _ i (by simpa using hi')]
  rfl

lemma negFlagChecked_eq (g : Nat → Bool) (n : Nat) :
    (if n > 0 then readBit ((List.range n).map g) (n - 1) else pure false)
      = some (if n > 0 then ((List.range n).map g).getD (n - 1) false
          else false) := by
  by_cases hn : n > 0
  · rw [if_pos hn, if_pos hn]
    exact readBit_eq _ _ (by simp; omega)
  · rw [if_neg hn, if_neg hn]
    rfl

lemma aluChecked_eq (x y : List Bool) (zx nx zy ny f no : Bool) :
    aluChecked x y zx nx zy ny f no = some (alu x y zx nx zy ny f no) := by
  unfold aluChecked alu
  dsimp only
  rw [conditionedChecked_eq, conditionedChecked_eq]
  simp only [some_bind_reduce]
  cases f with
  | true =>
      rw [if_pos rfl, if_pos rfl, n_bit_adderChecked_eq]
      simp only [some_bind_reduce]
      rw [copyChecked_eq]
      simp only [some_bind_reduce]
      cases no with
      | true =>
          rw [if_pos rfl, if_pos rfl, negChecked_eq]
          simp only [some_bind_reduce]
          rw [zeroChecked_eq]
          simp only [some_bind_reduce]
          rw [negFlagChecked_eq]
          simp only [some_bind_reduce]
          rfl
      | false =>
          rw [if_neg Bool.false_ne_true, if_neg Bool.false_ne_true]
          simp only [pure_bind_reduce]
          rw [zeroChecked_eq]
          simp only [some_bind_reduce]
          rw [negFlagChecked_eq]
          simp only [some_bind_reduce]
          rfl
  | false =>
      rw [if_neg Bool.false_ne_true, if_neg Bool.false_ne_true, andChecked_eq]
      simp only [some_bind_reduce]
      cases no with
      | true =>
          rw [if_pos rfl, if_pos rfl, negChecked_eq]
          simp only [some_bind_reduce]
          rw [zeroChecked_eq]
          simp only [some_bind_reduce]
          rw [negFlagChecked_eq]
          simp only [some_bind_reduce]
          rfl
      | false =>
          rw [if_neg Bool.false_ne_true, if_neg Bool.false_ne_true]
          simp only [pure_bind_reduce]
          rw [zeroChecked_eq]
          simp only [some_bind_reduce]
          rw [negFlagChecked_eq]
          simp only [some_bind_reduce]
          rfl

lemma alu16Checked_eq (x y : List Bool) (zx nx zy ny f no : Bool) :
    alu16Checked x y zx nx zy ny f no = some (alu16 x y zx nx zy ny f no) := by
  unfold alu16Checked alu16
  dsimp only
  rw [aluChecked_eq]
  simp only [some_bind_reduce]
  rw [copyChecked_eq]
  simp only [some_bind_reduce]
  rfl

/-- C8: every vector-indexing core function is total over arbitrary-length
bit vectors and arbitrary flags: each checked variant, in which every index
access may fail, always returns `some` of the total function's result, so
no input (empty, single-bit, mismatched widths, all-zero, all-one, any flag
combination) can reach an out-of-bounds panic.  The half and full adders
take fixed boolean arguments and perform no index access. -/
theorem core_functions_total (a b x y : List Bool) (zx nx zy ny f no : Bool) :
    n_bit_adderChecked a b = some (n_bit_adder a b) ∧
    incrementerChecked a = some (incrementer a) ∧
    aluChecked x y zx nx zy ny f no = some (alu x y zx nx zy ny f no) ∧
    alu16Checked x y zx nx zy ny f no = some (alu16 x y zx nx zy ny f no) :=
  ⟨n_bit_adderChecked_eq a b, incrementerChecked_eq a,
   aluChecked_eq x y zx nx zy ny f no, alu16Checked_eq x y zx nx zy ny f no⟩

end CompSysLab
